import Mathlib

/-!
Verification of the event-pipeline core of the `watchdog` repository.

The Go source (src/watchdog.go, the older variant in src/unnamed/part_001 and
`waitOrStop` in src/unnamed/part_000) is embedded shallowly: pure helpers
become Lean functions, the stateful marshaller loop becomes an explicit step
function on a state type, run-time panics become `Option` results, and strings
are handled through their character lists so that every definition is
executable by the kernel.
-/

set_option maxRecDepth 4000

namespace Watchdog

/-- Event kinds of a work item (src/watchdog.go, `const (modified = iota; deleted)`). -/
inductive EventType
  | modified
  | deleted
deriving DecidableEq

/-- Node kinds of a work item (src/watchdog.go, `const (unknown = iota; directory; file)`). -/
inductive NodeType
  | unknown
  | directory
  | file
deriving DecidableEq

/-- A single classified change (src/watchdog.go, `type workItem struct`). -/
structure WorkItem where
  path : String
  nodeType : NodeType
  eventType : EventType
deriving DecidableEq

/-- The newest-to-oldest scan inside `appendWorkItem` (src/watchdog.go lines
194-206), expressed on the reversed batch, so the head is the newest entry.
`some r` means the loop returned early (`r` is the updated reversed batch:
unchanged for an exact duplicate, the matching `modified` entry overwritten in
place for a delete subsumption); `none` means the loop ran through and the
caller appends. -/
def admitRev (w : WorkItem) : List WorkItem → Option (List WorkItem)
  | [] => none
  | item :: rest =>
    if item = w then
      some (item :: rest)
    else if item.path = w.path ∧ w.eventType = EventType.deleted ∧
        item.eventType = EventType.modified then
      some (w :: rest)
    else
      (admitRev w rest).map (item :: ·)

/-- `appendWorkItem` (src/watchdog.go lines 193-209): scan the batch from the
newest entry backwards; drop an exact duplicate, let a `deleted` item replace a
`modified` item with the same path in place, and otherwise append. -/
def appendWorkItem (workItems : List WorkItem) (workItem : WorkItem) : List WorkItem :=
  match admitRev workItem workItems.reverse with
  | some res => res.reverse
  | none => workItems ++ [workItem]

/-- The condition under which the scan of `appendWorkItem` stops at a batch
entry `x` when admitting `w`: exact duplicate or delete-subsumes-modify. -/
def matchCond (w x : WorkItem) : Prop :=
  x = w ∨ (x.path = w.path ∧ w.eventType = EventType.deleted ∧
    x.eventType = EventType.modified)

/-- State of the `workMarshaller` loop (src/watchdog.go lines 211-255): the
current batch and whether the agglomeration timer is armed (`timer != nil`). -/
structure MarshallerState where
  currentWorkItems : List WorkItem
  timerRunning : Bool
deriving DecidableEq

/-- The outcome of one `select` in the `workMarshaller` loop: an item was
received, the downstream accepted the batch (only offered while no timer
runs), the timer fired (with the nested non-blocking send finding the
consumer ready or not), or the context was cancelled. -/
inductive MarshallerEvent
  | itemArrived (w : WorkItem)
  | flushAccepted
  | timerFired (consumerReady : Bool)
  | ctxDone

/-- One iteration of the `workMarshaller` loop (src/watchdog.go lines 217-254)
as a step function; `none` means the arm is not offered in this state or the
loop exits (context cancellation). An arriving item is admitted via
`appendWorkItem` and (re-)arms the timer; a flush hands the batch off and
allocates a fresh empty one; a firing timer clears the timer and flushes only
if the nested non-blocking send finds the consumer ready. -/
def marshalStep (s : MarshallerState) : MarshallerEvent → Option MarshallerState
  | MarshallerEvent.itemArrived w =>
      some ⟨appendWorkItem s.currentWorkItems w, true⟩
  | MarshallerEvent.flushAccepted =>
      if s.currentWorkItems ≠ [] ∧ s.timerRunning = false then
        some ⟨[], false⟩
      else none
  | MarshallerEvent.timerFired consumerReady =>
      if s.currentWorkItems ≠ [] ∧ s.timerRunning = true then
        some ⟨if consumerReady then [] else s.currentWorkItems, false⟩
      else none
  | MarshallerEvent.ctxDone => none

/-- `isExcluded` (src/watchdog.go lines 24-31); each compiled regular
expression is abstracted to its matching predicate. -/
def isExcluded (path : String) (excludeRegexps : List (String → Bool)) : Bool :=
  excludeRegexps.any (fun r => r path)

/-- Outcome of the `os.Stat` call made by `eventsWatcher` for a modified path. -/
inductive StatResult
  | statError
  | isDir
  | isFile

/-- The fields of a raw fsnotify event that `eventsWatcher` inspects: the path
and whether the operation mask contains the Create, Write or Chmod bits
(everything else is treated as a removal/rename). -/
structure FsEvent where
  name : String
  create : Bool
  write : Bool
  chmod : Bool

/-- Translation of one raw event by `eventsWatcher` (src/watchdog.go lines
159-184): excluded paths are dropped (`none`), Create/Write/Chmod yield a
`modified` item classified via `stat`, everything else a `deleted` item with
the zero-value node type `unknown`. -/
def handleEvent (event : FsEvent) (stat : StatResult)
    (excludeRegexps : List (String → Bool)) : Option WorkItem :=
  if isExcluded event.name excludeRegexps then
    none
  else if event.create || event.write || event.chmod then
    some { path := event.name
           nodeType :=
             match stat with
             | StatResult.statError => NodeType.unknown
             | StatResult.isDir => NodeType.directory
             | StatResult.isFile => NodeType.file
           eventType := EventType.modified }
  else
    some { path := event.name, nodeType := NodeType.unknown,
           eventType := EventType.deleted }

/-- Go `strconv.Atoi` on the character list of its argument: an optional sign
followed by at least one decimal digit, the value within the 64-bit integer
range; `none` is the error case. -/
def atoiChars (cs : List Char) : Option Int :=
  match cs with
  | [] => none
  | c :: rest =>
    let body := if c = '-' ∨ c = '+' then rest else c :: rest
    if body = [] ∨ ¬ body.all Char.isDigit then none
    else
      let n : Nat := body.foldl (fun a d => 10 * a + (d.toNat - 48)) 0
      let v : Int := if c = '-' then -(n : Int) else (n : Int)
      if v < -(2 ^ 63 : Int) ∨ (2 ^ 63 : Int) ≤ v then none else some v

/-- Go `strconv.Atoi` on a string. -/
def goAtoi (s : String) : Option Int := atoiChars s.data

/-- Result of handling one `agglomeration ms` configuration field:
startup aborted with a diagnostic, or a window of the given milliseconds. -/
inductive ConfigResult
  | panicked
  | duration (ms : Int)
deriving DecidableEq

/-- The `agglomeration ms` handling of `readConfiguration` (src/watchdog.go
lines 65-72): an absent (empty) field defaults to 10 ms, a field rejected by
`strconv.Atoi` aborts startup, and any parsed integer - negative ones
included - becomes the window. -/
def parseAgglomerationTime (field : String) : ConfigResult :=
  if field = "" then ConfigResult.duration 10
  else
    match goAtoi field with
    | none => ConfigResult.panicked
    | some ms => ConfigResult.duration ms

/-- Outcome of `cmd.Process.Signal(interrupt)` inside `waitOrStop`
(src/unnamed/part_000): success, the "os: process already finished" error, or
any other error. -/
inductive SignalOutcome
  | sigOk
  | alreadyFinished
  | failed (e : String)
deriving DecidableEq

/-- The schedule-dependent inputs of one `waitOrStop` run
(src/unnamed/part_000): whether `ctx.Done()` won the goroutine's first select
(before `Wait` returned and the `errc <- nil` send succeeded), the outcome of
the interrupt signal, whether the main thread received from `errc` within the
kill delay (before the timer fired), the non-nil `ctx.Err()` value, and the
error returned by `cmd.Wait()` (`none` for a nil error). -/
structure WaitOrStopRun where
  ctxDoneBeforeWait : Bool
  signalOutcome : SignalOutcome
  receiveWithinKillDelay : Bool
  ctxErr : String
  waitErr : Option String

/-- The value the `waitOrStop` goroutine sends on `errc`
(src/unnamed/part_000 lines 28-65). If the child finished first, `nil`.
Otherwise: a failed interrupt with "already finished" reports `nil`; a
successful interrupt reports `ctx.Err()` (sent inside the kill-delay window or
after the fallback kill - both send the cancellation reason); any other signal
failure reports `ctx.Err()` when received within the kill delay, else the
signal error itself after the kill. With a non-positive kill delay the
computed error is sent directly. -/
def interruptionError (killDelay : Int) (r : WaitOrStopRun) : Option String :=
  if r.ctxDoneBeforeWait = false then none
  else
    match r.signalOutcome with
    | SignalOutcome.alreadyFinished => none
    | SignalOutcome.sigOk =>
      if 0 < killDelay then
        if r.receiveWithinKillDelay then some r.ctxErr else some r.ctxErr
      else some r.ctxErr
    | SignalOutcome.failed e =>
      if 0 < killDelay then
        if r.receiveWithinKillDelay then some r.ctxErr else some e
      else some e

/-- The result of `waitOrStop` (src/unnamed/part_000 lines 67-71): the value
received from `errc` when non-nil, otherwise the `cmd.Wait()` error. -/
def waitOrStop (killDelay : Int) (r : WaitOrStopRun) : Option String :=
  match interruptionError killDelay r with
  | some e => some e
  | none => r.waitErr

/-- Go `strings.Split(s, "/")` on the character list: the runs of characters
between the `'/'` separators, with `n` separators yielding `n + 1` pieces. -/
def splitSlash : List Char → List (List Char)
  | [] => [[]]
  | c :: cs =>
    if c = '/' then [] :: splitSlash cs
    else
      match splitSlash cs with
      | [] => [[c]]
      | r :: rs => (c :: r) :: rs

/-- Go `strings.Join(elems, "/")` on character lists. -/
def joinSlash : List (List Char) → List Char
  | [] => []
  | [c] => c
  | c :: cs => c ++ '/' :: joinSlash cs

/-- The component-level core of Go `path.Clean` for a non-rooted path whose
components contain no `'/'` (the shape `filepath.Join` feeds it): drop empty
and `"."` components; a `".."` cancels the most recent kept component when
there is one and it is not itself `".."`, and is kept otherwise. The output
is accumulated in reverse. -/
def cleanLoop (out : List (List Char)) : List (List Char) → List (List Char)
  | [] => out
  | c :: cs =>
    if c = [] ∨ c = ['.'] then cleanLoop out cs
    else if c = ['.', '.'] then
      if out ≠ [] ∧ out.headI ≠ ['.', '.'] then cleanLoop out.tail cs
      else cleanLoop (c :: out) cs
    else cleanLoop (c :: out) cs

/-- Go `filepath.Join(elems...)` for slash-free components: skip the leading
empty elements, join the rest with `'/'` and Clean the result; Clean returns
`"."` when everything cancels, and Join returns the empty string when every
element is empty. -/
def filepathJoin (elems : List (List Char)) : List Char :=
  match elems.dropWhile (· = []) with
  | [] => []
  | es =>
    match (cleanLoop [] es).reverse with
    | [] => ['.']
    | cleaned => joinSlash cleaned

/-- The inner loop of `longestPrefix` in src/watchdog.go (lines 120-125) after
`longest = longest[:minimalLen]`: truncate `longest` at the first component
that differs from the corresponding component of the other path, stopping the
scan there (`break`). Both arguments have length `minimalLen` at the call
site. -/
def truncFirstDiff : List (List Char) → List (List Char) → List (List Char)
  | ls, [] => ls
  | [], _ :: _ => []
  | l :: ls, c :: cs => if c ≠ l then [] else l :: truncFirstDiff ls cs

/-- One iteration of the outer loop of `longestPrefix` in src/watchdog.go
(lines 111-128): cut both component lists to their minimal length and truncate
at the first difference. (The early `break` of the outer loop once `longest`
is empty is immaterial: this step maps an empty `longest` to itself.) -/
def lpStep (longest components : List (List Char)) : List (List Char) :=
  let minimalLen := min longest.length components.length
  truncFirstDiff (longest.take minimalLen) (components.take minimalLen)

/-- The outer loop of `longestPrefix` in src/watchdog.go over the remaining
paths. -/
def foldSteps (longest : List (List Char)) : List String → List (List Char)
  | [] => longest
  | p :: ps => foldSteps (lpStep longest (splitSlash p.data)) ps

/-- `longestPrefix` of src/watchdog.go (lines 106-135): split every path on
`'/'`, fold the common-prefix step over the tail, `filepath.Join` the
surviving components and return `"."` for an empty result. The panic on an
empty input list is modelled by `none`. -/
def longestPrefixWd (paths : List String) : Option String :=
  match paths with
  | [] => none
  | p :: ps =>
    let longest := foldSteps (splitSlash p.data) ps
    let result := filepathJoin longest
    some (String.mk (if result = [] then ['.'] else result))

/-- The inner loop of `longestPrefix` in src/unnamed/part_001 (lines 56-60):
like the watchdog.go loop but without the `break`, so after a truncation at
position `i` the next iteration indexes `longest[i+1]` past the new length -
a Go runtime panic, modelled by `none`. -/
def scanNoBreak (cur : List (List Char)) : List (List Char) → Nat → Option (List (List Char))
  | [], _ => some cur
  | c :: cs, i =>
    match cur[i]? with
    | none => none
    | some l => scanNoBreak (if c ≠ l then cur.take i else cur) cs (i + 1)

/-- One iteration of the outer loop of `longestPrefix` in
src/unnamed/part_001 (lines 48-63). -/
def lpStepOld (longest components : List (List Char)) : Option (List (List Char)) :=
  let minimalLen := min longest.length components.length
  scanNoBreak (longest.take minimalLen) (components.take minimalLen) 0

/-- The outer loop of `longestPrefix` in src/unnamed/part_001 over the
remaining paths, propagating a panic of the inner loop. -/
def foldStepsOld (longest : List (List Char)) : List String → Option (List (List Char))
  | [] => some longest
  | p :: ps =>
    match lpStepOld longest (splitSlash p.data) with
    | none => none
    | some l => foldStepsOld l ps

/-- `longestPrefix` of src/unnamed/part_001 (lines 43-71): identical to the
watchdog.go version except for the missing `break` in the inner loop; `none`
models both the empty-input panic and the out-of-range panic. -/
def longestPrefixOld (paths : List String) : Option String :=
  match paths with
  | [] => none
  | p :: ps =>
    match foldStepsOld (splitSlash p.data) ps with
    | none => none
    | some longest =>
      let result := filepathJoin longest
      some (String.mk (if result = [] then ['.'] else result))

/-- The longest common prefix of two component lists; `lpStep` computes
exactly this. -/
def lcp : List (List Char) → List (List Char) → List (List Char)
  | a :: as, b :: bs => if a = b then a :: lcp as bs else []
  | _, _ => []

/-- A path component that `path.Clean` passes through unchanged: non-empty
and neither `"."` nor `".."`. -/
def cleanComp (c : List Char) : Prop :=
  c ≠ [] ∧ c ≠ ['.'] ∧ c ≠ ['.', '.']

instance (c : List Char) : Decidable (cleanComp c) := by
  unfold cleanComp
  infer_instance

/-- An external command started by the worker: the script name (resolved in
the scripts directory) together with its single path argument. -/
inductive Command
  | bulkSync (arg : String)
  | copy (arg : String)
  | delete (arg : String)
deriving DecidableEq

/-- The script selection of `worker` (src/watchdog.go lines 260-277): more
than one item invokes `bulk_sync` on the longest common prefix of the paths;
a single item dispatches on its event and node type. A worker never receives
an empty package (and indexing `workPackage[0]` would panic), modelled by
`none`. -/
def selectCommand (workPackage : List WorkItem) : Option Command :=
  if 1 < workPackage.length then
    (longestPrefixWd (workPackage.map WorkItem.path)).map Command.bulkSync
  else
    match workPackage with
    | [] => none
    | w :: _ =>
      if w.eventType = EventType.deleted then some (Command.delete w.path)
      else if w.nodeType = NodeType.file then some (Command.copy w.path)
      else some (Command.bulkSync w.path)

/-!  Helper lemmas about the scan of `appendWorkItem`. -/

theorem admitRev_eq_none_iff (w : WorkItem) (l : List WorkItem) :
    admitRev w l = none ↔ ∀ x ∈ l, ¬ matchCond w x := by
  induction l with
  | nil => simp [admitRev]
  | cons a rest ih =>
    by_cases h1 : a = w
    · simp [admitRev, h1, matchCond]
    · by_cases h2 : a.path = w.path ∧ w.eventType = EventType.deleted ∧
          a.eventType = EventType.modified
      · simp only [admitRev, if_neg h1, if_pos h2]
        constructor
        · intro h; cases h
        · intro h
          exact absurd (Or.inr h2) (h a (by simp))
      · simp only [admitRev, if_neg h1, if_neg h2, Option.map_eq_none']
        rw [ih]
        constructor
        · intro h x hx
          rcases List.mem_cons.mp hx with rfl | hx'
          · intro hc
            rcases hc with hc | hc
            · exact h1 hc
            · exact h2 hc
          · exact h x hx'
        · intro h x hx
          exact h x (List.mem_cons_of_mem _ hx)

theorem admitRev_some_decomp (w : WorkItem) (l : List WorkItem) (r : List WorkItem)
    (h : admitRev w l = some r) :
    ∃ l1 x l2, l = l1 ++ x :: l2 ∧ (∀ y ∈ l1, ¬ matchCond w y) ∧ matchCond w x ∧
      ((x = w ∧ r = l) ∨
        (x.path = w.path ∧ w.eventType = EventType.deleted ∧
          x.eventType = EventType.modified ∧ r = l1 ++ w :: l2)) := by
  induction l generalizing r with
  | nil => simp [admitRev] at h
  | cons a rest ih =>
    by_cases h1 : a = w
    · refine ⟨[], a, rest, by simp, by simp, Or.inl h1, Or.inl ⟨h1, ?_⟩⟩
      simp [admitRev, h1] at h
      simp [h1, ← h]
    · by_cases h2 : a.path = w.path ∧ w.eventType = EventType.deleted ∧
          a.eventType = EventType.modified
      · simp only [admitRev, if_neg h1, if_pos h2, Option.some_inj] at h
        exact ⟨[], a, rest, by simp, by simp, Or.inr h2,
          Or.inr ⟨h2.1, h2.2.1, h2.2.2, by simp [← h]⟩⟩
      · simp only [admitRev, if_neg h1, if_neg h2, Option.map_eq_some'] at h
        obtain ⟨r', hr', rfl⟩ := h
        obtain ⟨l1, x, l2, hl, hnot, hmatch, hbranch⟩ := ih r' hr'
        refine ⟨a :: l1, x, l2, by simp [hl], ?_, hmatch, ?_⟩
        · intro y hy
          rcases List.mem_cons.mp hy with rfl | hy'
          · intro hc
            rcases hc with hc | hc
            · exact h1 hc
            · exact h2 hc
          · exact hnot y hy'
        · rcases hbranch with ⟨hxw, rfl⟩ | ⟨hp, he, hm, rfl⟩
          · exact Or.inl ⟨hxw, by simp [hl]⟩
          · exact Or.inr ⟨hp, he, hm, by simp⟩

theorem admitRev_some_length (w : WorkItem) (l r : List WorkItem)
    (h : admitRev w l = some r) : r.length = l.length := by
  obtain ⟨l1, x, l2, hl, -, -, hbranch⟩ := admitRev_some_decomp w l r h
  rcases hbranch with ⟨-, rfl⟩ | ⟨-, -, -, rfl⟩
  · rfl
  · simp [hl]

/-!  Helper lemmas about splitting and joining path components. -/

theorem splitSlash_ne_nil (cs : List Char) : splitSlash cs ≠ [] := by
  induction cs with
  | nil => simp [splitSlash]
  | cons c cs ih =>
    by_cases h : c = '/'
    · simp [splitSlash, h]
    · simp only [splitSlash, if_neg h]
      rcases hs : splitSlash cs with _ | ⟨r, rs⟩ <;> simp

theorem not_slash_mem_splitSlash (cs : List Char) :
    ∀ c ∈ splitSlash cs, '/' ∉ c := by
  induction cs with
  | nil =>
    intro c hc
    simp [splitSlash] at hc
    simp [hc]
  | cons a cs ih =>
    intro c hc
    by_cases h : a = '/'
    · simp only [splitSlash, if_pos h] at hc
      rcases List.mem_cons.mp hc with rfl | hc'
      · simp
      · exact ih c hc'
    · simp only [splitSlash, if_neg h] at hc
      rcases hs : splitSlash cs with _ | ⟨r, rs⟩
      · rw [hs] at hc
        simp at hc
        subst hc
        intro hmem
        rcases List.mem_cons.mp hmem with h' | h'
        · exact h h'.symm
        · simp at h'
      · rw [hs] at hc
        rcases List.mem_cons.mp hc with rfl | hc'
        · intro hmem
          rcases List.mem_cons.mp hmem with h' | h'
          · exact h h'.symm
          · exact ih r (by rw [hs]; exact List.mem_cons_self r rs) h'
        · exact ih c (by rw [hs]; exact List.mem_cons_of_mem r hc')

theorem joinSlash_splitSlash (cs : List Char) : joinSlash (splitSlash cs) = cs := by
  induction cs with
  | nil => simp [splitSlash, joinSlash]
  | cons c cs ih =>
    by_cases h : c = '/'
    · simp only [splitSlash, if_pos h]
      rcases hs : splitSlash cs with _ | ⟨r, rs⟩
      · exact absurd hs (splitSlash_ne_nil cs)
      · rw [hs] at ih
        subst h
        simpa [joinSlash] using ih
    · simp only [splitSlash, if_neg h]
      rcases hs : splitSlash cs with _ | ⟨r, rs⟩
      · exact absurd hs (splitSlash_ne_nil cs)
      · rw [hs] at ih
        show joinSlash ((c :: r) :: rs) = c :: cs
        cases rs with
        | nil =>
          simp only [joinSlash] at ih ⊢
          rw [ih]
        | cons r2 rs2 =>
          simp only [joinSlash] at ih ⊢
          rw [List.cons_append, ih]

theorem splitSlash_of_no_slash (c : List Char) (hc : '/' ∉ c) : splitSlash c = [c] := by
  induction c with
  | nil => simp [splitSlash]
  | cons x c' ih =>
    have hx : ¬ x = '/' := fun h => hc (h ▸ List.mem_cons_self x c')
    have hc' : '/' ∉ c' := fun h => hc (List.mem_cons_of_mem x h)
    simp only [splitSlash, if_neg hx, ih hc']

theorem splitSlash_append (a r : List Char) (ha : '/' ∉ a) :
    splitSlash (a ++ '/' :: r) = a :: splitSlash r := by
  induction a with
  | nil => simp [splitSlash]
  | cons x a' ih =>
    have hx : ¬ x = '/' := fun h => ha (h ▸ List.mem_cons_self x a')
    have ha' : '/' ∉ a' := fun h => ha (List.mem_cons_of_mem x h)
    simp only [List.cons_append, splitSlash, if_neg hx]
    have h5 : splitSlash (a'.append ('/' :: r)) = a' :: splitSlash r := ih ha'
    rw [h5]

theorem splitSlash_joinSlash (comps : List (List Char)) (hne : comps ≠ [])
    (hfree : ∀ c ∈ comps, '/' ∉ c) : splitSlash (joinSlash comps) = comps := by
  induction comps with
  | nil => exact absurd rfl hne
  | cons c rest ih =>
    cases rest with
    | nil =>
      simp only [joinSlash]
      exact splitSlash_of_no_slash c (hfree c (List.mem_cons_self c []))
    | cons r2 rs2 =>
      simp only [joinSlash]
      rw [splitSlash_append c _ (hfree c (List.mem_cons_self c _)),
        ih (by simp) (fun d hd => hfree d (List.mem_cons_of_mem c hd))]

theorem cleanLoop_of_clean (es : List (List Char)) :
    ∀ out, (∀ c ∈ es, cleanComp c) → cleanLoop out es = es.reverse ++ out := by
  induction es with
  | nil => intro out _; simp [cleanLoop]
  | cons c es' ih =>
    intro out hcl
    obtain ⟨h1, h2, h3⟩ := hcl c (List.mem_cons_self c es')
    have hstep : cleanLoop out (c :: es') = cleanLoop (c :: out) es' := by
      simp only [cleanLoop, if_neg (show ¬ (c = [] ∨ c = ['.']) by simp [h1, h2]),
        if_neg h3]
    rw [hstep, ih (c :: out) (fun d hd => hcl d (List.mem_cons_of_mem c hd))]
    simp

theorem joinSlash_ne_nil (comps : List (List Char)) (hne : comps ≠ [])
    (h : ∀ c ∈ comps, c ≠ []) : joinSlash comps ≠ [] := by
  cases comps with
  | nil => exact absurd rfl hne
  | cons c rest =>
    cases rest with
    | nil => exact h c (List.mem_cons_self c [])
    | cons r2 rs2 =>
      simp only [joinSlash]
      intro hcontr
      rcases List.append_eq_nil.mp hcontr with ⟨-, h2⟩
      cases h2

theorem filepathJoin_of_clean (comps : List (List Char)) (hne : comps ≠ [])
    (hcl : ∀ c ∈ comps, cleanComp c) : filepathJoin comps = joinSlash comps := by
  rcases comps with _ | ⟨c, rest⟩
  · exact absurd rfl hne
  · have hc : c ≠ [] := (hcl c (List.mem_cons_self c rest)).1
    have hdrop : (c :: rest).dropWhile (· = []) = c :: rest := by
      simp [List.dropWhile_cons, hc]
    have hclean : cleanLoop [] (c :: rest) = (c :: rest).reverse ++ [] :=
      cleanLoop_of_clean (c :: rest) [] hcl
    rw [List.append_nil] at hclean
    simp only [filepathJoin, hdrop, hclean, List.reverse_reverse]

/-!  Helper lemmas about the longest-common-prefix computation. -/

theorem truncFirstDiff_eq_lcp (a : List (List Char)) :
    ∀ b, a.length = b.length → truncFirstDiff a b = lcp a b := by
  induction a with
  | nil =>
    intro b hb
    cases b with
    | nil => simp [truncFirstDiff, lcp]
    | cons y bs => simp at hb
  | cons x as ih =>
    intro b hb
    cases b with
    | nil => simp at hb
    | cons y bs =>
      simp only [List.length_cons, Nat.add_right_cancel_iff] at hb
      by_cases hxy : x = y
      · subst hxy
        rw [truncFirstDiff, if_neg (by simp), lcp, if_pos rfl, ih bs hb]
      · rw [truncFirstDiff, if_pos (fun h => hxy h.symm), lcp, if_neg hxy]

theorem lcp_nil_right (a : List (List Char)) : lcp a [] = [] := by
  cases a <;> rfl

theorem lcp_nil_left (b : List (List Char)) : lcp [] b = [] := by
  cases b <;> rfl

theorem lcp_take (a : List (List Char)) :
    ∀ b n, min a.length b.length ≤ n → lcp (a.take n) (b.take n) = lcp a b := by
  induction a with
  | nil => intro b n _; simp [lcp_nil_left]
  | cons x as ih =>
    intro b n hn
    cases b with
    | nil => simp [lcp_nil_right]
    | cons y bs =>
      rcases n with _ | n
      · exfalso
        simp only [List.length_cons] at hn
        omega
      · simp only [List.take_succ_cons]
        by_cases hxy : x = y
        · rw [lcp, lcp, if_pos hxy, if_pos hxy, ih bs n (by
            simp only [List.length_cons] at hn
            omega)]
        · rw [lcp, lcp, if_neg hxy, if_neg hxy]

theorem lpStep_eq_lcp (a b : List (List Char)) : lpStep a b = lcp a b := by
  have hlen : (a.take (min a.length b.length)).length =
      (b.take (min a.length b.length)).length := by
    simp [List.length_take]
  rw [lpStep, truncFirstDiff_eq_lcp _ _ hlen, lcp_take a b _ (le_refl _)]

theorem lcp_prefix_left (a : List (List Char)) : ∀ b, lcp a b <+: a := by
  induction a with
  | nil => intro b; cases b <;> simp [lcp]
  | cons x as ih =>
    intro b
    cases b with
    | nil => simp [lcp]
    | cons y bs =>
      by_cases h : x = y
      · rw [lcp, if_pos h]
        exact List.cons_prefix_cons.mpr ⟨rfl, ih bs⟩
      · rw [lcp, if_neg h]
        exact List.nil_prefix

theorem lcp_prefix_right (a : List (List Char)) : ∀ b, lcp a b <+: b := by
  induction a with
  | nil => intro b; cases b <;> simp [lcp]
  | cons x as ih =>
    intro b
    cases b with
    | nil => simp [lcp]
    | cons y bs =>
      by_cases h : x = y
      · rw [lcp, if_pos h]
        exact List.cons_prefix_cons.mpr ⟨h, ih bs⟩
      · rw [lcp, if_neg h]
        exact List.nil_prefix

theorem lcp_greatest (c : List (List Char)) :
    ∀ a b, c <+: a → c <+: b → c <+: lcp a b := by
  induction c with
  | nil => intro a b _ _; exact List.nil_prefix
  | cons x cs ih =>
    intro a b ha hb
    cases a with
    | nil => simp [List.prefix_nil] at ha
    | cons a1 as =>
      cases b with
      | nil => simp [List.prefix_nil] at hb
      | cons b1 bs =>
        obtain ⟨rfl, ha'⟩ := List.cons_prefix_cons.mp ha
        obtain ⟨heq, hb'⟩ := List.cons_prefix_cons.mp hb
        rw [lcp, if_pos heq]
        exact List.cons_prefix_cons.mpr ⟨rfl, ih as bs ha' hb'⟩

theorem foldSteps_prefix_init (ps : List String) :
    ∀ init, foldSteps init ps <+: init := by
  induction ps with
  | nil => intro init; exact List.prefix_refl _
  | cons p ps ih =>
    intro init
    exact (ih (lpStep init (splitSlash p.data))).trans
      (by rw [lpStep_eq_lcp]; exact lcp_prefix_left _ _)

theorem foldSteps_prefix_mem (ps : List String) :
    ∀ init q, q ∈ ps → foldSteps init ps <+: splitSlash q.data := by
  induction ps with
  | nil => intro init q hq; simp at hq
  | cons p ps ih =>
    intro init q hq
    rcases List.mem_cons.mp hq with rfl | hq'
    · exact (foldSteps_prefix_init ps _).trans
        (by rw [lpStep_eq_lcp]; exact lcp_prefix_right _ _)
    · exact ih _ q hq'

theorem foldSteps_greatest (ps : List String) :
    ∀ init cs, cs <+: init → (∀ q ∈ ps, cs <+: splitSlash q.data) →
      cs <+: foldSteps init ps := by
  induction ps with
  | nil => intro init cs h _; exact h
  | cons p ps ih =>
    intro init cs h1 h2
    refine ih _ cs ?_ (fun q hq => h2 q (List.mem_cons_of_mem p hq))
    rw [lpStep_eq_lcp]
    exact lcp_greatest cs _ _ h1 (h2 p (List.mem_cons_self p ps))

/-!  Claim C1: deduplication. -/

/-- C1, counterexample: the claimed invariant - a batch with no two exactly
equal entries stays duplicate-free under `appendWorkItem` - fails. In the
batch `[(p,unknown,deleted), (p,file,modified)]` (oldest first) admitting
`(p,unknown,deleted)` hits the newer `modified` entry first, replaces it in
place, and thereby duplicates the older `deleted` entry. -/
theorem C1_dedup_counterexample :
    ([⟨"p", NodeType.unknown, EventType.deleted⟩,
      ⟨"p", NodeType.file, EventType.modified⟩] : List WorkItem).Nodup ∧
    ¬ (appendWorkItem
        [⟨"p", NodeType.unknown, EventType.deleted⟩,
          ⟨"p", NodeType.file, EventType.modified⟩]
        ⟨"p", NodeType.unknown, EventType.deleted⟩).Nodup := by
  decide

/-- C1 (amended): for every batch with no two exactly equal entries, admitting
a work item that is not already an entry of the batch via `appendWorkItem`
leaves the batch without two exactly equal entries. -/
theorem C1_dedup_preserved (b : List WorkItem) (w : WorkItem)
    (hnd : b.Nodup) (hw : w ∉ b) : (appendWorkItem b w).Nodup := by
  rcases h : admitRev w b.reverse with _ | r
  · simp only [appendWorkItem, h]
    rw [List.nodup_append]
    refine ⟨hnd, List.nodup_singleton w, ?_⟩
    intro a ha hb
    rw [List.mem_singleton] at hb
    exact hw (hb ▸ ha)
  · simp only [appendWorkItem, h]
    obtain ⟨l1, x, l2, hl, hnot, hmatch, hbranch⟩ := admitRev_some_decomp w _ r h
    have hwrev : w ∉ b.reverse := fun hmem => hw (List.mem_reverse.mp hmem)
    rcases hbranch with ⟨hxw, rfl⟩ | ⟨hp, he, hm, rfl⟩
    · exfalso
      apply hwrev
      rw [hl, ← hxw]
      exact List.mem_append_right _ (List.mem_cons_self _ _)
    · rw [List.nodup_reverse]
      have hbn : (l1 ++ x :: l2).Nodup := by
        rw [← hl, List.nodup_reverse]
        exact hnd
      have hwn : w ∉ l1 ++ x :: l2 := by
        rw [← hl]
        exact hwrev
      rw [List.nodup_middle] at hbn ⊢
      rw [List.nodup_cons] at hbn ⊢
      refine ⟨?_, hbn.2⟩
      intro hmem
      apply hwn
      rcases List.mem_append.mp hmem with h' | h'
      · exact List.mem_append_left _ h'
      · exact List.mem_append_right _ (List.mem_cons_of_mem _ h')

/-- C1, witness for the amended theorem at a concrete batch and item. -/
theorem C1_dedup_preserved_witness :
    ([⟨"a", NodeType.file, EventType.modified⟩] : List WorkItem).Nodup ∧
    (⟨"b", NodeType.file, EventType.modified⟩ : WorkItem) ∉
      ([⟨"a", NodeType.file, EventType.modified⟩] : List WorkItem) ∧
    (appendWorkItem [⟨"a", NodeType.file, EventType.modified⟩]
      ⟨"b", NodeType.file, EventType.modified⟩).Nodup :=
  ⟨by decide, by decide, C1_dedup_preserved _ _ (by decide) (by decide)⟩

/-!  Claim C2: delete subsumption. -/

/-- C2, counterexample: when an exact duplicate of the admitted
`(p,_,deleted)` item sits at a newer position than the matching `modified`
entry, the scan stops at the duplicate and returns the batch unchanged - no
`modified` entry is replaced, although the batch does contain
`(p, file, modified)`. -/
theorem C2_subsumption_counterexample :
    (∃ x ∈ ([⟨"p", NodeType.file, EventType.modified⟩,
        ⟨"p", NodeType.unknown, EventType.deleted⟩] : List WorkItem),
      x.path = "p" ∧ x.eventType = EventType.modified) ∧
    appendWorkItem
        [⟨"p", NodeType.file, EventType.modified⟩,
          ⟨"p", NodeType.unknown, EventType.deleted⟩]
        ⟨"p", NodeType.unknown, EventType.deleted⟩ =
      [⟨"p", NodeType.file, EventType.modified⟩,
        ⟨"p", NodeType.unknown, EventType.deleted⟩] := by
  decide

/-- C2 (amended): if the batch contains an entry with path `p` and event type
`modified`, admitting `(p, _, deleted)` always leaves the batch length
unchanged; when additionally no entry of the batch exactly equals the admitted
item, the most recent `modified` entry with that path is replaced in place,
with the positions of all other entries preserved. -/
theorem C2_delete_subsumes (b : List WorkItem) (w : WorkItem)
    (hdel : w.eventType = EventType.deleted)
    (hex : ∃ x ∈ b, x.path = w.path ∧ x.eventType = EventType.modified) :
    (appendWorkItem b w).length = b.length ∧
    (w ∉ b → ∃ b1 y b2, b = b1 ++ y :: b2 ∧
      y.path = w.path ∧ y.eventType = EventType.modified ∧
      (∀ z ∈ b2, ¬ (z.path = w.path ∧ z.eventType = EventType.modified)) ∧
      appendWorkItem b w = b1 ++ w :: b2) := by
  obtain ⟨x0, hx0b, hx0p, hx0m⟩ := hex
  rcases h : admitRev w b.reverse with _ | r
  · exact absurd ((admitRev_eq_none_iff w b.reverse).mp h x0 (List.mem_reverse.mpr hx0b))
      (not_not_intro (Or.inr ⟨hx0p, hdel, hx0m⟩))
  · constructor
    · simp only [appendWorkItem, h, List.length_reverse]
      rw [admitRev_some_length w _ r h, List.length_reverse]
    · intro hw
      have hwrev : w ∉ b.reverse := fun hmem => hw (List.mem_reverse.mp hmem)
      obtain ⟨l1, x, l2, hl, hnot, hmatch, hbranch⟩ := admitRev_some_decomp w _ r h
      rcases hbranch with ⟨hxw, rfl⟩ | ⟨hp, he, hm, hr⟩
      · exfalso
        apply hwrev
        rw [hl, ← hxw]
        exact List.mem_append_right _ (List.mem_cons_self _ _)
      · have hb : b = l2.reverse ++ x :: l1.reverse := by
          have h2 := congrArg List.reverse hl
          simpa using h2
        refine ⟨l2.reverse, x, l1.reverse, hb, hp, hm, ?_, ?_⟩
        · intro z hz hc
          exact hnot z (List.mem_reverse.mp hz) (Or.inr ⟨hc.1, hdel, hc.2⟩)
        · simp only [appendWorkItem, h, hr]
          simp

/-- C2, witness for the amended theorem at a concrete batch and item. -/
theorem C2_delete_subsumes_witness :
    (⟨"p", NodeType.unknown, EventType.deleted⟩ : WorkItem).eventType =
      EventType.deleted ∧
    (appendWorkItem [⟨"p", NodeType.file, EventType.modified⟩]
      ⟨"p", NodeType.unknown, EventType.deleted⟩).length = 1 :=
  ⟨rfl, (C2_delete_subsumes [⟨"p", NodeType.file, EventType.modified⟩]
    ⟨"p", NodeType.unknown, EventType.deleted⟩ rfl (by decide)).1⟩

/-!  Claim C5: batch retained when the timer fires with a busy consumer. -/

/-- C5: whenever the batch is non-empty and the agglomeration timer fires with
the downstream consumer not ready, the marshaller keeps the batch unchanged
and clears the timer; the next admitted item re-arms the timer. -/
theorem C5_timer_flush_retains (s : MarshallerState)
    (hne : s.currentWorkItems ≠ []) (ht : s.timerRunning = true) :
    marshalStep s (MarshallerEvent.timerFired false) =
      some ⟨s.currentWorkItems, false⟩ ∧
    ∀ w, marshalStep ⟨s.currentWorkItems, false⟩ (MarshallerEvent.itemArrived w) =
      some ⟨appendWorkItem s.currentWorkItems w, true⟩ := by
  refine ⟨?_, fun w => rfl⟩
  simp [marshalStep, hne, ht]

/-- C5, witness at a concrete non-empty batch with a running timer. -/
theorem C5_timer_flush_retains_witness :
    marshalStep ⟨[⟨"p", NodeType.file, EventType.modified⟩], true⟩
        (MarshallerEvent.timerFired false) =
      some ⟨[⟨"p", NodeType.file, EventType.modified⟩], false⟩ :=
  (C5_timer_flush_retains ⟨[⟨"p", NodeType.file, EventType.modified⟩], true⟩
    (by decide) rfl).1

/-!  Claim C7: excluded paths produce no downstream item. -/

/-- C7: for every raw event whose path matches at least one exclusion regex,
the event watcher drops the event: its translation produces no work item, so
nothing for that path is sent downstream. -/
theorem C7_excluded_dropped (event : FsEvent) (stat : StatResult)
    (excludeRegexps : List (String → Bool))
    (h : isExcluded event.name excludeRegexps = true) :
    handleEvent event stat excludeRegexps = none := by
  simp [handleEvent, h]

/-- C7, witness: a write event on an excluded path is dropped. -/
theorem C7_excluded_dropped_witness :
    isExcluded "R/a.txt" [fun s => s == "R/a.txt"] = true ∧
    handleEvent ⟨"R/a.txt", false, true, false⟩ StatResult.isFile
      [fun s => s == "R/a.txt"] = none :=
  ⟨rfl, C7_excluded_dropped _ _ _ rfl⟩

/-!  Claim C8: agglomeration window configuration. -/

/-- C8, counterexample: the claim that a present value not parsing as a
non-negative integer aborts startup fails: `strconv.Atoi` accepts `"-5"`, so
configuration reading yields a window of -5 ms instead of aborting. -/
theorem C8_negative_accepted :
    parseAgglomerationTime "-5" = ConfigResult.duration (-5) := by
  decide

/-- C8 (amended): an absent `agglomeration ms` yields a window of 10 ms, and
a present value that `strconv.Atoi` rejects (non-integer or out of range)
aborts startup; any parsed integer, negative ones included, is accepted as
the window. -/
theorem C8_agglomeration_parsing (s : String) :
    parseAgglomerationTime "" = ConfigResult.duration 10 ∧
    (s ≠ "" → goAtoi s = none → parseAgglomerationTime s = ConfigResult.panicked) ∧
    (∀ n, s ≠ "" → goAtoi s = some n →
      parseAgglomerationTime s = ConfigResult.duration n) := by
  refine ⟨rfl, ?_, ?_⟩
  · intro hne hnone
    simp [parseAgglomerationTime, hne, hnone]
  · intro n hne hsome
    simp [parseAgglomerationTime, hne, hsome]

/-- C8, witness: a non-integer field aborts startup. -/
theorem C8_agglomeration_parsing_witness :
    ("abc" : String) ≠ "" ∧ goAtoi "abc" = none ∧
    parseAgglomerationTime "abc" = ConfigResult.panicked :=
  ⟨by decide, by decide, (C8_agglomeration_parsing "abc").2.1 (by decide) (by decide)⟩

/-!  Claim C9: the error returned by waitOrStop. -/

/-- C9: `waitOrStop` returns the interruption error whenever one arose, and
otherwise the child's wait error; when the run was interrupted (the context
was cancelled before the child finished) and the interrupt signal was
delivered, the returned error is the context cancellation reason. -/
theorem C9_waitOrStop_result (killDelay : Int) (r : WaitOrStopRun) :
    (interruptionError killDelay r = none → waitOrStop killDelay r = r.waitErr) ∧
    (∀ e, interruptionError killDelay r = some e → waitOrStop killDelay r = some e) ∧
    (r.ctxDoneBeforeWait = true → r.signalOutcome = SignalOutcome.sigOk →
      waitOrStop killDelay r = some r.ctxErr) := by
  refine ⟨fun h => by simp [waitOrStop, h], fun e h => by simp [waitOrStop, h], ?_⟩
  intro h1 h2
  simp [waitOrStop, interruptionError, h1, h2]

/-- C9, witness: an interrupted run with a successful signal returns the
cancellation reason. -/
theorem C9_waitOrStop_result_witness :
    waitOrStop 100 ⟨true, SignalOutcome.sigOk, true, "context canceled", none⟩ =
      some "context canceled" :=
  (C9_waitOrStop_result 100 ⟨true, SignalOutcome.sigOk, true, "context canceled", none⟩).2.2
    rfl rfl

/-!  Claim C3: longest-prefix correctness. -/

/-- C3, counterexample: for L = ["a", "b"] the function returns "." whose
component list ["."] is not a component-wise prefix of the components of
"a" ∈ L, so the result is not a prefix of every path in L as claimed. -/
theorem C3_lp_counterexample :
    longestPrefixWd ["a", "b"] = some "." ∧
    ¬ (∀ q ∈ (["a", "b"] : List String),
        splitSlash (String.data ".") <+: splitSlash q.data) := by
  decide

/-- C3 (amended): for every non-empty list of clean relative paths (each
'/'-component non-empty and neither "." nor "..") sharing at least one
leading component, the returned string's component list is a component-wise
prefix of the components of every path in the list, and no strictly longer
component sequence is a common prefix of all of them. -/
theorem C3_lp_correct (p : String) (ps : List String) (c0 : List Char)
    (hclean : ∀ q ∈ p :: ps, ∀ c ∈ splitSlash q.data, cleanComp c)
    (hshare : ∀ q ∈ p :: ps, [c0] <+: splitSlash q.data) :
    ∃ r, longestPrefixWd (p :: ps) = some r ∧
      (∀ q ∈ p :: ps, splitSlash r.data <+: splitSlash q.data) ∧
      (∀ cs, (∀ q ∈ p :: ps, cs <+: splitSlash q.data) →
        cs.length ≤ (splitSlash r.data).length) := by
  have hLinit : foldSteps (splitSlash p.data) ps <+: splitSlash p.data :=
    foldSteps_prefix_init ps _
  have hLmem : ∀ q ∈ p :: ps, foldSteps (splitSlash p.data) ps <+: splitSlash q.data := by
    intro q hq
    rcases List.mem_cons.mp hq with rfl | hq'
    · exact hLinit
    · exact foldSteps_prefix_mem ps _ q hq'
  have hLgr : ∀ cs, cs <+: splitSlash p.data → (∀ q ∈ ps, cs <+: splitSlash q.data) →
      cs <+: foldSteps (splitSlash p.data) ps :=
    fun cs h1 h2 => foldSteps_greatest ps _ cs h1 h2
  have hLne : foldSteps (splitSlash p.data) ps ≠ [] := by
    have h1 : [c0] <+: foldSteps (splitSlash p.data) ps :=
      hLgr [c0] (hshare p (List.mem_cons_self p ps))
        (fun q hq => hshare q (List.mem_cons_of_mem p hq))
    intro h0
    rw [h0, List.prefix_nil] at h1
    cases h1
  have hLclean : ∀ c ∈ foldSteps (splitSlash p.data) ps, cleanComp c :=
    fun c hc => hclean p (List.mem_cons_self p ps) c (hLinit.subset hc)
  have hLfree : ∀ c ∈ foldSteps (splitSlash p.data) ps, '/' ∉ c :=
    fun c hc => not_slash_mem_splitSlash p.data c (hLinit.subset hc)
  have hjoin : filepathJoin (foldSteps (splitSlash p.data) ps) =
      joinSlash (foldSteps (splitSlash p.data) ps) :=
    filepathJoin_of_clean _ hLne hLclean
  have hjne : joinSlash (foldSteps (splitSlash p.data) ps) ≠ [] :=
    joinSlash_ne_nil _ hLne (fun c hc => (hLclean c hc).1)
  have hsplit : splitSlash (joinSlash (foldSteps (splitSlash p.data) ps)) =
      foldSteps (splitSlash p.data) ps :=
    splitSlash_joinSlash _ hLne hLfree
  refine ⟨String.mk (joinSlash (foldSteps (splitSlash p.data) ps)), ?_, ?_, ?_⟩
  · simp only [longestPrefixWd]
    rw [hjoin, if_neg hjne]
  · intro q hq
    show splitSlash (joinSlash (foldSteps (splitSlash p.data) ps)) <+: splitSlash q.data
    rw [hsplit]
    exact hLmem q hq
  · intro cs hcs
    have hpre : cs <+: foldSteps (splitSlash p.data) ps :=
      hLgr cs (hcs p (List.mem_cons_self p ps))
        (fun q hq => hcs q (List.mem_cons_of_mem p hq))
    show cs.length ≤ (splitSlash (joinSlash (foldSteps (splitSlash p.data) ps))).length
    rw [hsplit]
    exact hpre.length_le

/-- C3, witness for the amended theorem at L = ["a/b", "a/c"]. -/
theorem C3_lp_correct_witness :
    ∃ r, longestPrefixWd ("a/b" :: ["a/c"]) = some r ∧
      (∀ q ∈ ("a/b" :: ["a/c"] : List String),
        splitSlash r.data <+: splitSlash q.data) ∧
      (∀ cs, (∀ q ∈ ("a/b" :: ["a/c"] : List String), cs <+: splitSlash q.data) →
        cs.length ≤ (splitSlash r.data).length) :=
  C3_lp_correct "a/b" ["a/c"] ['a'] (by decide) (by decide)

/-!  Claim C6: longestPrefix on a single path. -/

/-- C6, counterexample: `longestPrefix(["a/"])` returns "a", not "a/": the
trailing slash does not survive Join/Clean, so the result is not equal to the
input path. -/
theorem C6_singleton_counterexample :
    longestPrefixWd ["a/"] = some "a" ∧ longestPrefixWd ["a/"] ≠ some "a/" := by
  decide

/-- C6 (amended): for every clean relative path x (each '/'-component
non-empty and neither "." nor ".."), longestPrefix([x]) = x; for other paths
the result is the cleaned tree-relative form of x instead of x itself. -/
theorem C6_singleton_id (x : String)
    (hclean : ∀ c ∈ splitSlash x.data, cleanComp c) :
    longestPrefixWd [x] = some x := by
  have hne : splitSlash x.data ≠ [] := splitSlash_ne_nil x.data
  have hjoin : filepathJoin (splitSlash x.data) = joinSlash (splitSlash x.data) :=
    filepathJoin_of_clean _ hne hclean
  have hrt : joinSlash (splitSlash x.data) = x.data := joinSlash_splitSlash x.data
  have hjne : joinSlash (splitSlash x.data) ≠ [] :=
    joinSlash_ne_nil _ hne (fun c hc => (hclean c hc).1)
  simp only [longestPrefixWd, foldSteps]
  rw [hjoin, hrt, if_neg (hrt ▸ hjne)]

/-- C6, witness at the clean relative path "a/b". -/
theorem C6_singleton_id_witness :
    (∀ c ∈ splitSlash (String.data "a/b"), cleanComp c) ∧
    longestPrefixWd ["a/b"] = some "a/b" :=
  ⟨by decide, C6_singleton_id "a/b" (by decide)⟩

/-!  Helper lemmas for the part_001 inner loop. -/

theorem scanNoBreak_some (comps : List (List Char)) :
    ∀ cur i r, cur.length = i + comps.length →
      scanNoBreak cur comps i = some r →
      r = cur.take (i + (lcp (cur.drop i) comps).length) := by
  induction comps with
  | nil =>
    intro cur i r hlen h
    simp only [scanNoBreak, Option.some_inj] at h
    subst h
    have hlen0 : cur.length = i := by simpa using hlen
    have htake : cur.take i = cur := List.take_of_length_le (le_of_eq hlen0)
    rw [lcp_nil_right]
    simpa using htake.symm
  | cons c cs ih =>
    intro cur i r hlen h
    have hi : i < cur.length := by
      simp only [List.length_cons] at hlen
      omega
    have hl : cur[i]? = some cur[i] := List.getElem?_eq_getElem hi
    simp only [scanNoBreak, hl] at h
    have hdrop : cur.drop i = cur[i] :: cur.drop (i + 1) := List.drop_eq_getElem_cons hi
    by_cases hcl : c = cur[i]
    · rw [if_neg (not_not_intro hcl)] at h
      have hlen' : cur.length = (i + 1) + cs.length := by
        simp only [List.length_cons] at hlen
        omega
      have hr := ih cur (i + 1) r hlen' h
      rw [hdrop, lcp, if_pos hcl.symm]
      simp only [List.length_cons]
      rw [hr]
      congr 1
      omega
    · rw [if_pos hcl] at h
      cases cs with
      | nil =>
        simp only [scanNoBreak, Option.some_inj] at h
        subst h
        rw [hdrop, lcp, if_neg (fun hh => hcl hh.symm)]
        simp
      | cons c2 cs2 =>
        exfalso
        have hnone : (cur.take i)[i + 1]? = none := by
          apply List.getElem?_eq_none
          simp only [List.length_take]
          omega
        simp only [scanNoBreak, hnone] at h
        exact Option.noConfusion h

theorem lpStepOld_some (longest components r : List (List Char))
    (h : lpStepOld longest components = some r) : r = lpStep longest components := by
  simp only [lpStepOld] at h
  have hlen : (longest.take (min longest.length components.length)).length =
      0 + (components.take (min longest.length components.length)).length := by
    simp [List.length_take]
  have hr := scanNoBreak_some _ _ 0 r hlen h
  rw [List.drop_zero, Nat.zero_add] at hr
  have hAB := lcp_prefix_left (longest.take (min longest.length components.length))
    (components.take (min longest.length components.length))
  rw [← List.prefix_iff_eq_take.mp hAB] at hr
  rw [lcp_take longest components _ (le_refl _)] at hr
  rw [lpStep_eq_lcp]
  exact hr

theorem foldStepsOld_some (ps : List String) :
    ∀ init l, foldStepsOld init ps = some l → foldSteps init ps = l := by
  induction ps with
  | nil =>
    intro init l h
    simp only [foldStepsOld, Option.some_inj] at h
    simp [foldSteps, h]
  | cons p ps ih =>
    intro init l h
    rcases hs : lpStepOld init (splitSlash p.data) with _ | l1
    · simp only [foldStepsOld, hs] at h
      exact Option.noConfusion h
    · simp only [foldStepsOld, hs] at h
      rw [foldSteps, ← lpStepOld_some init (splitSlash p.data) l1 hs]
      exact ih l1 l h

/-!  Claim C10: equivalence of the two longestPrefix implementations. -/

/-- C10, counterexample: on ["a/b", "c/d"] the watchdog.go version returns
"." while the part_001 version, lacking the `break`, indexes past the
truncated slice and panics at run time. -/
theorem C10_equiv_counterexample :
    longestPrefixWd ["a/b", "c/d"] = some "." ∧
    longestPrefixOld ["a/b", "c/d"] = none := by
  decide

/-- C10 (amended): whenever the part_001 implementation completes without
panicking, the two implementations return the same result; on some non-empty
path lists the part_001 implementation panics where watchdog.go's returns a
value. -/
theorem C10_old_agrees (L : List String) (r : String)
    (h : longestPrefixOld L = some r) : longestPrefixWd L = some r := by
  cases L with
  | nil => simp [longestPrefixOld] at h
  | cons p ps =>
    rcases hf : foldStepsOld (splitSlash p.data) ps with _ | longest
    · simp only [longestPrefixOld, hf] at h
      exact Option.noConfusion h
    · simp only [longestPrefixOld, hf] at h
      simp only [longestPrefixWd]
      rw [foldStepsOld_some ps _ _ hf]
      exact h

/-- C10, witness: a list on which the part_001 version completes; both
versions return "a/b". -/
theorem C10_old_agrees_witness :
    longestPrefixOld ["a/b/c", "a/b/d"] = some "a/b" ∧
    longestPrefixWd ["a/b/c", "a/b/d"] = some "a/b" :=
  ⟨by decide, C10_old_agrees ["a/b/c", "a/b/d"] "a/b" (by decide)⟩

/-!  Claim C4: worker script selection. -/

/-- C4: a work package with more than one item invokes bulk_sync on the
longest common path-component prefix of the item paths; a single-item package
invokes delete for a deleted item, copy for a file, and bulk_sync otherwise
(directory or unknown). -/
theorem C4_script_selection (wp : List WorkItem) :
    (1 < wp.length → ∃ s, longestPrefixWd (wp.map WorkItem.path) = some s ∧
      selectCommand wp = some (Command.bulkSync s)) ∧
    (∀ w, wp = [w] → selectCommand wp =
      some (if w.eventType = EventType.deleted then Command.delete w.path
        else if w.nodeType = NodeType.file then Command.copy w.path
        else Command.bulkSync w.path)) := by
  constructor
  · intro hlen
    rcases wp with _ | ⟨w, ws⟩
    · simp at hlen
    · rcases hlp : longestPrefixWd ((w :: ws).map WorkItem.path) with _ | s
      · rw [List.map_cons] at hlp
        simp [longestPrefixWd] at hlp
      · refine ⟨s, rfl, ?_⟩
        rw [List.map_cons] at hlp
        simp only [selectCommand, if_pos hlen, List.map_cons, hlp, Option.map_some']
  · intro w hwp
    subst hwp
    have hnot : ¬ (1 < ([w] : List WorkItem).length) := by simp
    by_cases h1 : w.eventType = EventType.deleted
    · simp [selectCommand, hnot, h1]
    · by_cases h2 : w.nodeType = NodeType.file
      · simp [selectCommand, hnot, h1, h2]
      · simp [selectCommand, hnot, h1, h2]

/-- C4, witness: two modified files under a/ are dispatched as one bulk_sync
of their common prefix "a". -/
theorem C4_script_selection_witness :
    selectCommand [⟨"a/b", NodeType.file, EventType.modified⟩,
      ⟨"a/c", NodeType.file, EventType.modified⟩] = some (Command.bulkSync "a") := by
  obtain ⟨s, hs, hc⟩ := (C4_script_selection
    [⟨"a/b", NodeType.file, EventType.modified⟩,
      ⟨"a/c", NodeType.file, EventType.modified⟩]).1 (by decide)
  have h2 : longestPrefixWd ["a/b", "a/c"] = some "a" := by decide
  rw [show (([⟨"a/b", NodeType.file, EventType.modified⟩,
      ⟨"a/c", NodeType.file, EventType.modified⟩] : List WorkItem).map WorkItem.path) =
    ["a/b", "a/c"] from rfl] at hs
  rw [hs] at h2
  have hsa : s = "a" := Option.some_inj.mp h2
  rw [hsa] at hc
  exact hc

end Watchdog
